import Mathlib

/-!
Shallow embedding of the patch-application engine of `vscode-clip-diff`
(`src/extension.ts`), together with theorems checking the specification's
claims about it.

Text is modelled as `List Char` (JavaScript strings are sequences of code
units; all inputs of interest here are plain text).  JavaScript arrays of
lines become `List (List Char)`; out-of-range array reads (`undefined`)
are modelled with `List.getElem?` (`l[i]?`), and `undefined !== someString`
corresponds to `none ≠ some v`.  Fallible operations return `Option` /
`Except`.
-/

namespace ClipDiff

/-- Mirror of `vscode.EndOfLine` (only the two values used by the code). -/
inductive EndOfLine where
  | LF : EndOfLine
  | CRLF : EndOfLine

/-! ## Line normalizer (`normalizeEOL`, `restoreEOL`, source lines 131-138) -/

/-- Embedding of `s.replace(/\r\n/g, "\n")`: a single left-to-right pass that
collapses each `"\r\n"` pair to `"\n"`; a lone `'\r'` is left untouched. -/
def normalizeEOL : List Char → List Char
  | [] => []
  | [c] => [c]
  | c :: d :: rest =>
    if c = '\r' ∧ d = '\n' then '\n' :: normalizeEOL rest
    else c :: normalizeEOL (d :: rest)

/-- Embedding of `s.replace(/\n/g, "\r\n")`: every `'\n'` becomes `"\r\n"`. -/
def replaceLF : List Char → List Char
  | [] => []
  | c :: rest =>
    if c = '\n' then '\r' :: '\n' :: replaceLF rest
    else c :: replaceLF rest

/-- Embedding of `restoreEOL` (source lines 135-138). -/
def restoreEOL (s : List Char) (eol : EndOfLine) : List Char :=
  match eol with
  | .CRLF => replaceLF s
  | .LF => s

/-! ## Line splitting and joining

`content.split("\n")` and `lines.join("\n")` from the engine. -/

/-- Embedding of `s.split("\n")`.  Like the JavaScript original, the result is
never the empty list (`"".split("\n")` is `[""]`). -/
def splitLines : List Char → List (List Char)
  | [] => [[]]
  | c :: rest =>
    if c = '\n' then [] :: splitLines rest
    else
      match splitLines rest with
      | [] => [[c]]
      | l :: ls => (c :: l) :: ls

/-- Embedding of `lines.join("\n")`. -/
def joinLines : List (List Char) → List Char
  | [] => []
  | [l] => l
  | l :: ls => l ++ '\n' :: joinLines ls

/-! ## Diff detection (`isLikelyUnifiedDiff`, source lines 106-110) -/

/-- Character class `\s` of the JavaScript regexes, restricted to the ASCII
whitespace characters plus NBSP and BOM (the Unicode `Zs` spaces other than
NBSP are not modelled; none of the results below depend on them). -/
def isSpaceJS (c : Char) : Bool :=
  c = ' ' || c = '\t' || c = '\n' || c = '\r' || c = '\u000b' || c = '\u000c' ||
  c = '\u00a0' || c = '\ufeff'

/-- Characters matched by `.` in a JavaScript regex (anything except a line
terminator). -/
def isDotChar (c : Char) : Bool :=
  !(c = '\n' || c = '\r' || c = '\u2028' || c = '\u2029')

/-- JavaScript `LineTerminator` characters (the positions after which a
multiline `^` matches). -/
def isLineTerm (c : Char) : Bool :=
  c = '\n' || c = '\r' || c = '\u2028' || c = '\u2029'

/-- Test of the regex `^@@\s-` with no `m` flag, so `^` only matches at the very start of
the text): the text begins with `"@@"`, one whitespace character, `'-'`. -/
def matchesHunkStart : List Char → Bool
  | a :: b :: c :: d :: _ => a = '@' && b = '@' && isSpaceJS c && d = '-'
  | _ => false

/-- Helper for `matchesHeaderPairAt`: after `"---"` and one `\s` character the
regex part `.+\n\+\+\+\s.+` must match.  `.+` is a nonempty run of non-terminator
characters; because `.` matches neither `'\n'` nor `'\r'`, the run must be the
maximal one and must be followed directly by `'\n'`. -/
def afterDashes (rest : List Char) : Bool :=
  let run := rest.takeWhile isDotChar
  let rest2 := rest.dropWhile isDotChar
  !run.isEmpty &&
    (match rest2 with
     | e :: f :: g :: h2 :: c2 :: rest3 =>
       e = '\n' && f = '+' && g = '+' && h2 = '+' && isSpaceJS c2 &&
         !(rest3.takeWhile isDotChar).isEmpty
     | _ => false)

/-- Match of the regex `---\s.+\n\+\+\+\s.+` at the current position. -/
def matchesHeaderPairAt (s : List Char) : Bool :=
  match s with
  | a :: b :: c :: d :: rest => a = '-' && b = '-' && c = '-' && isSpaceJS d && afterDashes rest
  | _ => false

/-- Scan for `matchesHeaderPairAt` at every position that follows a line
terminator (the positions where a multiline `^` matches, other than 0). -/
def containsHeaderPairAux : List Char → Bool
  | [] => false
  | c :: rest => (isLineTerm c && matchesHeaderPairAt rest) || containsHeaderPairAux rest

/-- Test of the regex `^---\s.+\n\+\+\+\s.+` with the `m` flag: the pair pattern matches at position 0
or just after a line terminator. -/
def containsHeaderPair (s : List Char) : Bool :=
  matchesHeaderPairAt s || containsHeaderPairAux s

/-- Embedding of `isLikelyUnifiedDiff` (source lines 106-110).  Note that the
first regex `^@@\s-` (tested with `.test`) has no `m` flag, so it is anchored at the start of the
whole text. -/
def isLikelyUnifiedDiff (s : List Char) : Bool :=
  if s = [] then false
  else matchesHunkStart s || containsHeaderPair s

/-! ## Hunk parser (`parseHunks`, source lines 144-174) -/

/-- One parsed hunk (source type `Hunk`, lines 144-151). -/
structure Hunk where
  header : List Char
  body : List (List Char)
  oldStart : Nat
  oldCount : Option Nat
  newStart : Nat
  newCount : Option Nat
  deriving DecidableEq

/-- Structured failures of the engine (the two `throw new Error(...)` sites,
named as in the specification's error taxonomy). -/
inductive PatchError where
  | malformedHunkHeader (header : List Char) : PatchError
  | hunkApplicationFailed (header : List Char) : PatchError
  deriving DecidableEq

/-- Does the text begin with the two characters `"@@"`? -/
def startsWithAtAt : List Char → Bool
  | '@' :: '@' :: _ => true
  | _ => false

/-- Scan for the first `"@@"` that sits just after a line terminator, returning
the text after those two characters (helper for `dropToMark`). -/
def dropToMarkGo : List Char → Option (List Char)
  | [] => none
  | c :: rest =>
    if (c = '\n' || c = '\r') && startsWithAtAt rest then some (rest.drop 2)
    else dropToMarkGo rest

/-- Position just after the first match of `/^@@/m` in the text (the `^` of a
multiline JavaScript regex matches at position 0 and after `'\n'` or `'\r'`),
or `none` when there is no match.  `diffText.split(/^@@/gm).slice(1)` drops
everything before this position. -/
def dropToMark (s : List Char) : Option (List Char) :=
  if startsWithAtAt s then some (s.drop 2)
  else dropToMarkGo s

/-- Fuel-driven splitter: cut the text at every subsequent `/^@@/m` match.  The
two marker characters are consumed (the caller re-prefixes `"@@"`, mirroring
`.map(h => "@@" + h)`); the line terminator before a marker stays with the
preceding part, as in `String.prototype.split`.  The fuel only serves
termination; `chopGo s.length s` never exhausts it. -/
def chopGo : Nat → List Char → List (List Char)
  | _, [] => [[]]
  | 0, s => [s]
  | fuel + 1, c :: rest =>
    if (c = '\n' || c = '\r') && startsWithAtAt rest then
      [c] :: chopGo fuel (rest.drop 2)
    else
      match chopGo fuel rest with
      | [] => [[c]]
      | b :: bs => (c :: b) :: bs

/-- Embedding of `diffText.split(/^@@/gm).slice(1).map(h => "@@" + h)`
(source line 154): the raw text of each hunk block, `"@@"` included. -/
def rawBlocks (diff : List Char) : List (List Char) :=
  match dropToMark diff with
  | none => []
  | some s => (chopGo s.length s).map (fun b => '@' :: '@' :: b)

/-- Numeric value of a digit string (`Number(m[1])` on a `\d+` capture). -/
def natOfDigits (ds : List Char) : Nat :=
  ds.foldl (fun n c => 10 * n + (c.toNat - 48)) 0

/-- Optional group `(?:,(\d+))?`: consume `','` followed by a nonempty digit
run, if present; otherwise consume nothing. -/
def parseOptCount (s : List Char) : Option Nat × List Char :=
  match s with
  | ',' :: r =>
    let d := r.takeWhile Char.isDigit
    if d.isEmpty then (none, ',' :: r)
    else (some (natOfDigits d), r.dropWhile Char.isDigit)
  | r => (none, r)

/-- Match of the header grammar regex `@@ -(\d+)(?:,(\d+))? \+(\d+)(?:,(\d+))? @@`
(anchored at the start) (source line 160).  Returns the four captured groups, or `none` when the
header does not match.  Trailing text after the closing `@@` is allowed, as
the regex is not anchored at the end. -/
def parseHeader (h : List Char) : Option (Nat × Option Nat × Nat × Option Nat) :=
  match h with
  | '@' :: '@' :: ' ' :: '-' :: r =>
    let d1 := r.takeWhile Char.isDigit
    if d1.isEmpty then none
    else
      let r1 := r.dropWhile Char.isDigit
      let p1 := parseOptCount r1
      match p1.2 with
      | ' ' :: '+' :: r3 =>
        let d3 := r3.takeWhile Char.isDigit
        if d3.isEmpty then none
        else
          let r4 := r3.dropWhile Char.isDigit
          let p2 := parseOptCount r4
          match p2.2 with
          | ' ' :: '@' :: '@' :: _ => some (natOfDigits d1, p1.1, natOfDigits d3, p2.1)
          | _ => none
      | _ => none
  | _ => none

/-- First line of a raw block (`lines[0] ?? ""`). -/
def headerOf (raw : List Char) : List Char :=
  (splitLines raw).headD []

/-- Loop body of `parseHunks`: parse each raw block, failing on the first block
whose header does not match the grammar. -/
def parseHunksGo : List (List Char) → Except PatchError (List Hunk)
  | [] => .ok []
  | raw :: rest =>
    let lines := splitLines raw
    let header := lines.headD []
    match parseHeader header with
    | none => .error (.malformedHunkHeader header)
    | some (os, oc, ns, nc) =>
      match parseHunksGo rest with
      | .error e => .error e
      | .ok hs =>
        .ok ({ header := header, body := lines.tail,
               oldStart := os, oldCount := oc,
               newStart := ns, newCount := nc } :: hs)

/-- Embedding of `parseHunks` (source lines 153-174). -/
def parseHunks (diff : List Char) : Except PatchError (List Hunk) :=
  parseHunksGo (rawBlocks diff)

/-! ## Old/new blocks, scoring, verification (source lines 206-269) -/

/-- Values of the context (`' '`) and deletion (`'-'`) lines of a hunk body,
in order; empty body lines and lines with any other tag are skipped (source
lines 210-216, the `oldBlock` pushes). -/
def oldLines : List (List Char) → List (List Char)
  | [] => []
  | line :: rest =>
    match line with
    | [] => oldLines rest
    | c :: v => if c = ' ' ∨ c = '-' then v :: oldLines rest else oldLines rest

/-- Values of the context (`' '`) and addition (`'+'`) lines of a hunk body,
in order (source lines 210-216, the `newBlock` pushes). -/
def newLines : List (List Char) → List (List Char)
  | [] => []
  | line :: rest =>
    match line with
    | [] => newLines rest
    | c :: v => if c = ' ' ∨ c = '+' then v :: newLines rest else newLines rest

/-- Embedding of `scoreSequence` (source lines 247-254): the number of
positions `i < min(window.length, target.length)` where the two lines agree. -/
def scoreSequence : List (List Char) → List (List Char) → Nat
  | [], _ => 0
  | _, [] => 0
  | w :: ws, t :: ts => (if w = t then 1 else 0) + scoreSequence ws ts

/-- Score of the candidate window starting at index `i` (the source's
`scoreSequence(contentLines.slice(i, i + oldBlock.length), oldBlock)`). -/
def scoreAt (doc old : List (List Char)) (i : Nat) : Nat :=
  scoreSequence ((doc.drop i).take old.length) old

/-- Embedding of the sliding-window loop of `applySingleHunk` (source lines
219-230).  `fuel` counts the remaining iterations (`doc.length + 1 - i` at
entry), `best`/`bestScore` mirror `bestIdx`/`bestScore` (with `bestIdx = -1`
represented by `none`; `bestScore` stays an `Int` as it starts at `-1`).
The `break` on a perfect score returns the just-recorded index. -/
def findLoop (doc old : List (List Char)) : Nat → Nat → Option Nat → Int → Option Nat
  | 0, _, best, _ => best
  | fuel + 1, i, best, bestScore =>
    let window := (doc.drop i).take old.length
    let score := scoreSequence window old
    if bestScore < (score : Int) then
      if score = old.length then some i
      else findLoop doc old fuel (i + 1) (some i) (score : Int)
    else findLoop doc old fuel (i + 1) best bestScore

/-- The matcher: best-scoring window position from `startLine` onward, with
candidates `i = startLine, ..., doc.length` inclusive; `none` exactly when the
loop body never runs (`bestIdx` stays `-1`). -/
def findBestWindow (doc old : List (List Char)) (startLine : Nat) : Option Nat :=
  findLoop doc old (doc.length + 1 - startLine) startLine none (-1)

/-- Embedding of `verifyRemovals` (source lines 256-269).  Context and deletion
lines are compared against the document line at the cursor (an out-of-range
read is `undefined` in JavaScript and never equals a string, modelled by
`contentLines[idx]? = some v` being false); other lines are skipped and do not
advance the cursor. -/
def verifyRemovals (contentLines : List (List Char)) (startIdx : Nat)
    (body : List (List Char)) : Bool :=
  match body with
  | [] => true
  | line :: rest =>
    match line with
    | [] => verifyRemovals contentLines startIdx rest
    | c :: v =>
      if c = ' ' ∨ c = '-' then
        if contentLines[startIdx]? = some v then
          verifyRemovals contentLines (startIdx + 1) rest
        else false
      else verifyRemovals contentLines startIdx rest

/-! ## Hunk applier and orchestrator (source lines 176-245) -/

/-- Embedding of `applySingleHunk` (source lines 199-245). -/
def applySingleHunk (content : List Char) (hunk : Hunk) (startLine : Nat) :
    Option (List Char × Nat) :=
  let contentLines := splitLines content
  let oldBlock := oldLines hunk.body
  let newBlock := newLines hunk.body
  match findBestWindow contentLines oldBlock startLine with
  | none => none
  | some bestIdx =>
    if verifyRemovals contentLines bestIdx hunk.body then
      let before := contentLines.take bestIdx
      let after := contentLines.drop (bestIdx + oldBlock.length)
      some (joinLines (before ++ newBlock ++ after), bestIdx + newBlock.length)
    else none

/-- The fold over hunks inside `applyDiffPatch` (source lines 186-194):
`content`/`cursor` mirror `content`/`lastAppliedLine`, and the first hunk that
is not applicable aborts the whole fold with `hunkApplicationFailed`. -/
def applyHunks : List Hunk → List Char → Nat → Except PatchError (List Char)
  | [], content, _ => .ok content
  | h :: rest, content, cursor =>
    match applySingleHunk content h cursor with
    | none => .error (.hunkApplicationFailed h.header)
    | some (c, n) => applyHunks rest c n

/-- Embedding of `applyDiffPatch` (source lines 176-197). -/
def applyDiffPatch (documentContent rawDiff : List Char) (eol : EndOfLine) :
    Except PatchError (List Char) :=
  let docLF := normalizeEOL documentContent
  let diff := normalizeEOL rawDiff
  match parseHunks diff with
  | .error e => .error e
  | .ok hunks =>
    if hunks.isEmpty then .ok (restoreEOL docLF eol)
    else
      match applyHunks hunks docLF 0 with
      | .error e => .error e
      | .ok content => .ok (restoreEOL content eol)

/-- A run of successful hunk applications: `RunsTo hs c n c' n'` says that
folding `applySingleHunk` over the hunks `hs`, starting from document text `c`
and cursor `n`, succeeds for every hunk and ends at text `c'`, cursor `n'`. -/
inductive RunsTo : List Hunk → List Char → Nat → List Char → Nat → Prop where
  | nil (c : List Char) (n : Nat) : RunsTo [] c n c n
  | cons {h : Hunk} {hs : List Hunk} {c : List Char} {n : Nat}
      {c₁ : List Char} {n₁ : Nat} {c₂ : List Char} {n₂ : Nat} :
      applySingleHunk c h n = some (c₁, n₁) → RunsTo hs c₁ n₁ c₂ n₂ →
      RunsTo (h :: hs) c n c₂ n₂

/-! ## Specification-side predicates (used to state claims) -/

/-- A body line the interpreters skip: empty, or tagged with none of the three
recognized characters. -/
def skippedLine (l : List Char) : Prop :=
  ∀ c, l.head? = some c → c ≠ ' ' ∧ c ≠ '-' ∧ c ≠ '+'

/-- Text with no lone carriage return: every `'\r'` is immediately followed by
`'\n'`. -/
def noLoneCR : List Char → Bool
  | [] => true
  | [c] => c ≠ '\r'
  | c :: d :: rest =>
    if c = '\r' then d = '\n' && noLoneCR rest
    else noLoneCR (d :: rest)

/-- Text with all carriage returns removed (the line content, independent of
the line-ending convention). -/
def stripCR (s : List Char) : List Char :=
  s.filter (fun c => c ≠ '\r')

/-- Every line ending of `s` is in the form of the convention `eol`: for LF no
`"\r\n"` occurs, for CRLF every `'\n'` is immediately preceded by `'\r'`. -/
def eolConventionOK (eol : EndOfLine) (s : List Char) : Prop :=
  match eol with
  | .LF => List.Chain' (fun a b => ¬(a = '\r' ∧ b = '\n')) s
  | .CRLF => s.head? ≠ some '\n' ∧ List.Chain' (fun a b => b = '\n' → a = '\r') s

/-- Reading of claim C8's description of `isLikelyUnifiedDiff`: some line of
the text starts with `"@@ -"`, or some line starting with `"---"` is
immediately followed by a line starting with `"+++"`. -/
def consecPairClaim : List (List Char) → Bool
  | l1 :: l2 :: rest =>
    (l1.take 3 = ['-', '-', '-'] && l2.take 3 = ['+', '+', '+'])
      || consecPairClaim (l2 :: rest)
  | _ => false

/-- Claim C8's stated detection predicate (modelled from the claim's words, to
be compared against the code's `isLikelyUnifiedDiff`). -/
def isLikelyUnifiedDiffClaim (s : List Char) : Bool :=
  (splitLines s).any (fun l => l.take 4 = ['@', '@', ' ', '-'])
    || consecPairClaim (splitLines s)

/-! ## Equation lemmas for the recursive definitions -/

theorem oldLines_nil : oldLines [] = [] := rfl

theorem oldLines_cons_empty (rest : List (List Char)) :
    oldLines ([] :: rest) = oldLines rest := rfl

theorem oldLines_cons (c : Char) (v : List Char) (rest : List (List Char)) :
    oldLines ((c :: v) :: rest) =
      if c = ' ' ∨ c = '-' then v :: oldLines rest else oldLines rest := rfl

theorem newLines_nil : newLines [] = [] := rfl

theorem newLines_cons_empty (rest : List (List Char)) :
    newLines ([] :: rest) = newLines rest := rfl

theorem newLines_cons (c : Char) (v : List Char) (rest : List (List Char)) :
    newLines ((c :: v) :: rest) =
      if c = ' ' ∨ c = '+' then v :: newLines rest else newLines rest := rfl

theorem verifyRemovals_nil (doc : List (List Char)) (m : Nat) :
    verifyRemovals doc m [] = true := rfl

theorem verifyRemovals_cons_empty (doc : List (List Char)) (m : Nat)
    (rest : List (List Char)) :
    verifyRemovals doc m ([] :: rest) = verifyRemovals doc m rest := rfl

theorem verifyRemovals_cons (doc : List (List Char)) (m : Nat) (c : Char)
    (v : List Char) (rest : List (List Char)) :
    verifyRemovals doc m ((c :: v) :: rest) =
      if c = ' ' ∨ c = '-' then
        (if doc[m]? = some v then verifyRemovals doc (m + 1) rest else false)
      else verifyRemovals doc m rest := rfl

/-! ## Helper lemmas: removal verification -/

/-- Characterization of `verifyRemovals`: it succeeds exactly when, for every
position `k` of the old block (the context and deletion values in order), the
document line at `startIdx + k` exists and equals that value.  The cursor only
advances on context/deletion lines, so the `k`-th old-block value is compared
at `startIdx + k`. -/
theorem verifyRemovals_iff (doc : List (List Char)) :
    ∀ (body : List (List Char)) (m : Nat),
      verifyRemovals doc m body = true ↔
        ∀ k, k < (oldLines body).length → doc[m + k]? = (oldLines body)[k]? := by
  intro body
  induction body with
  | nil => intro m; simp [verifyRemovals_nil, oldLines_nil]
  | cons line rest ih =>
    intro m
    match line with
    | [] =>
      rw [verifyRemovals_cons_empty, oldLines_cons_empty]
      exact ih m
    | c :: v =>
      by_cases htag : c = ' ' ∨ c = '-'
      · rw [verifyRemovals_cons, oldLines_cons, if_pos htag, if_pos htag]
        by_cases hd : doc[m]? = some v
        · rw [if_pos hd, ih (m + 1)]
          constructor
          · intro h k hk
            cases k with
            | zero => simpa using hd
            | succ k' =>
              have hk' : k' < (oldLines rest).length := by
                simpa [Nat.succ_lt_succ_iff] using hk
              have h2 := h k' hk'
              rw [List.getElem?_cons_succ, show m + (k' + 1) = m + 1 + k' by omega]
              exact h2
          · intro h k hk
            have h2 := h (k + 1) (by simpa [Nat.succ_lt_succ_iff] using hk)
            rw [List.getElem?_cons_succ] at h2
            rw [show m + 1 + k = m + (k + 1) by omega]
            exact h2
        · rw [if_neg hd]
          refine iff_of_false (by simp) ?_
          intro hall
          exact hd (by simpa using hall 0 (by simp))
      · rw [verifyRemovals_cons, oldLines_cons, if_neg htag, if_neg htag]
        exact ih m

/-! ## Helper lemmas: lines the body interpreters skip

A body line that is empty or whose first character is none of `' '`, `'-'`,
`'+'` is skipped by the old-block builder, the new-block builder and the
removal verifier alike. -/

theorem oldLines_skipped {j : List Char} (hj : skippedLine j) :
    ∀ (b1 b2 : List (List Char)), oldLines (b1 ++ j :: b2) = oldLines (b1 ++ b2) := by
  intro b1 b2
  induction b1 with
  | nil =>
    match j, hj with
    | [], _ => simp [oldLines_cons_empty]
    | c :: v, hj =>
      have h := hj c rfl
      simp only [List.nil_append, oldLines_cons]
      rw [if_neg (by tauto)]
  | cons line rest ih =>
    match line with
    | [] =>
      simp only [List.cons_append, oldLines_cons_empty]
      exact ih
    | c :: v =>
      simp only [List.cons_append, oldLines_cons]
      rw [ih]

theorem newLines_skipped {j : List Char} (hj : skippedLine j) :
    ∀ (b1 b2 : List (List Char)), newLines (b1 ++ j :: b2) = newLines (b1 ++ b2) := by
  intro b1 b2
  induction b1 with
  | nil =>
    match j, hj with
    | [], _ => simp [newLines_cons_empty]
    | c :: v, hj =>
      have h := hj c rfl
      simp only [List.nil_append, newLines_cons]
      rw [if_neg (by tauto)]
  | cons line rest ih =>
    match line with
    | [] =>
      simp only [List.cons_append, newLines_cons_empty]
      exact ih
    | c :: v =>
      simp only [List.cons_append, newLines_cons]
      rw [ih]

theorem verifyRemovals_skipped (doc : List (List Char)) {j : List Char}
    (hj : skippedLine j) :
    ∀ (b1 b2 : List (List Char)) (m : Nat),
      verifyRemovals doc m (b1 ++ j :: b2) = verifyRemovals doc m (b1 ++ b2) := by
  intro b1
  induction b1 with
  | nil =>
    intro b2 m
    match j, hj with
    | [], _ => simp [verifyRemovals_cons_empty]
    | c :: v, hj =>
      have h := hj c rfl
      simp only [List.nil_append, verifyRemovals_cons]
      rw [if_neg (by tauto)]
  | cons line rest ih =>
    intro b2 m
    match line with
    | [] =>
      simp only [List.cons_append, verifyRemovals_cons_empty]
      exact ih b2 m
    | c :: v =>
      simp only [List.cons_append, verifyRemovals_cons]
      by_cases htag : c = ' ' ∨ c = '-'
      · rw [if_pos htag, if_pos htag]
        by_cases hd : doc[m]? = some v
        · rw [if_pos hd, if_pos hd, ih]
        · rw [if_neg hd, if_neg hd]
      · rw [if_neg htag, if_neg htag, ih]


/-! ## Helper lemmas: the sliding-window matcher -/

theorem findLoop_zero (doc old : List (List Char)) (i : Nat) (best : Option Nat)
    (bestScore : Int) : findLoop doc old 0 i best bestScore = best := rfl

theorem findLoop_succ (doc old : List (List Char)) (fuel i : Nat)
    (best : Option Nat) (bestScore : Int) :
    findLoop doc old (fuel + 1) i best bestScore =
      if bestScore < ((scoreAt doc old i : Nat) : Int) then
        if scoreAt doc old i = old.length then some i
        else findLoop doc old fuel (i + 1) (some i) ((scoreAt doc old i : Nat) : Int)
      else findLoop doc old fuel (i + 1) best bestScore := rfl

theorem scoreSequence_le_length : ∀ (w t : List (List Char)),
    scoreSequence w t ≤ t.length := by
  intro w
  induction w with
  | nil => intro t; simp [scoreSequence]
  | cons a ws ih =>
    intro t
    match t with
    | [] => simp [scoreSequence]
    | b :: ts =>
      have h9 := ih ts
      by_cases hab : a = b
      · simp [scoreSequence, hab]
        omega
      · simp [scoreSequence, hab]
        omega

theorem scoreAt_le (doc old : List (List Char)) (i : Nat) :
    scoreAt doc old i ≤ old.length :=
  scoreSequence_le_length _ _

/-- Invariant of the scan loop, entered with a recorded best index `b` whose
score is the strict maximum of all candidates before `i`: the loop returns the
first index attaining the maximum score over the remaining range. -/
theorem findLoop_spec (doc old : List (List Char)) :
    ∀ (fuel i b : Nat), i + fuel = doc.length + 1 →
      ∃ m, findLoop doc old fuel i (some b) ((scoreAt doc old b : Nat) : Int) = some m ∧
        ((m = b ∧ ∀ j, i ≤ j → j ≤ doc.length → scoreAt doc old j ≤ scoreAt doc old b)
         ∨ (i ≤ m ∧ m ≤ doc.length ∧ scoreAt doc old b < scoreAt doc old m
            ∧ (∀ j, i ≤ j → j ≤ doc.length → scoreAt doc old j ≤ scoreAt doc old m)
            ∧ (∀ j, i ≤ j → j < m → scoreAt doc old j < scoreAt doc old m))) := by
  intro fuel
  induction fuel with
  | zero =>
    intro i b hfuel
    refine ⟨b, findLoop_zero doc old i (some b) _, .inl ⟨rfl, ?_⟩⟩
    intro j h1 h2
    omega
  | succ fuel ih =>
    intro i b hfuel
    rw [findLoop_succ]
    have hiL : i ≤ doc.length := by omega
    by_cases hlt : ((scoreAt doc old b : Nat) : Int) < ((scoreAt doc old i : Nat) : Int)
    · rw [if_pos hlt]
      have hltn : scoreAt doc old b < scoreAt doc old i := by exact_mod_cast hlt
      by_cases hperf : scoreAt doc old i = old.length
      · rw [if_pos hperf]
        refine ⟨i, rfl, .inr ⟨le_refl i, hiL, hltn, ?_, ?_⟩⟩
        · intro j h1 h2
          calc scoreAt doc old j ≤ old.length := scoreAt_le doc old j
            _ = scoreAt doc old i := hperf.symm
        · intro j h1 h2
          omega
      · rw [if_neg hperf]
        obtain ⟨m, hm, hspec⟩ := ih (i + 1) i (by omega)
        refine ⟨m, hm, ?_⟩
        rcases hspec with ⟨rfl, hall⟩ | ⟨h1, h2, h3, h4, h5⟩
        · refine .inr ⟨le_refl m, hiL, hltn, ?_, ?_⟩
          · intro j hj1 hj2
            rcases Nat.eq_or_lt_of_le hj1 with rfl | hj
            · exact le_refl _
            · exact hall j hj hj2
          · intro j hj1 hj2
            omega
        · refine .inr ⟨by omega, h2, lt_trans hltn h3, ?_, ?_⟩
          · intro j hj1 hj2
            rcases Nat.eq_or_lt_of_le hj1 with rfl | hj
            · exact le_of_lt h3
            · exact h4 j hj hj2
          · intro j hj1 hj2
            rcases Nat.eq_or_lt_of_le hj1 with rfl | hj
            · exact h3
            · exact h5 j hj hj2
    · rw [if_neg hlt]
      have hge : scoreAt doc old i ≤ scoreAt doc old b := by
        have := not_lt.mp hlt
        exact_mod_cast this
      obtain ⟨m, hm, hspec⟩ := ih (i + 1) b (by omega)
      refine ⟨m, hm, ?_⟩
      rcases hspec with ⟨rfl, hall⟩ | ⟨h1, h2, h3, h4, h5⟩
      · refine .inl ⟨rfl, ?_⟩
        intro j hj1 hj2
        rcases Nat.eq_or_lt_of_le hj1 with rfl | hj
        · exact hge
        · exact hall j hj hj2
      · refine .inr ⟨by omega, h2, h3, ?_, ?_⟩
        · intro j hj1 hj2
          rcases Nat.eq_or_lt_of_le hj1 with rfl | hj
          · exact le_trans hge (le_of_lt h3)
          · exact h4 j hj hj2
        · intro j hj1 hj2
          rcases Nat.eq_or_lt_of_le hj1 with rfl | hj
          · exact lt_of_le_of_lt hge h3
          · exact h5 j hj hj2

theorem findBestWindow_none_iff (doc old : List (List Char)) (start : Nat) :
    findBestWindow doc old start = none ↔ doc.length < start := by
  unfold findBestWindow
  constructor
  · intro h
    by_contra hgt
    push_neg at hgt
    obtain ⟨k, hk⟩ : ∃ k, doc.length + 1 - start = k + 1 :=
      ⟨doc.length - start, by omega⟩
    rw [hk, findLoop_succ,
        if_pos (show (-1 : Int) < ((scoreAt doc old start : Nat) : Int) by omega)] at h
    by_cases hperf : scoreAt doc old start = old.length
    · rw [if_pos hperf] at h
      cases h
    · rw [if_neg hperf] at h
      obtain ⟨m, hm, -⟩ := findLoop_spec doc old k (start + 1) start (by omega)
      rw [hm] at h
      cases h
  · intro h
    have h0 : doc.length + 1 - start = 0 := by omega
    rw [h0, findLoop_zero]

theorem findBestWindow_some_spec (doc old : List (List Char)) (start m : Nat)
    (h : findBestWindow doc old start = some m) :
    start ≤ m ∧ m ≤ doc.length ∧
      (∀ j, start ≤ j → j ≤ doc.length → scoreAt doc old j ≤ scoreAt doc old m) ∧
      (∀ j, start ≤ j → j < m → scoreAt doc old j < scoreAt doc old m) := by
  have hle : start ≤ doc.length := by
    by_contra hgt
    push_neg at hgt
    rw [(findBestWindow_none_iff doc old start).mpr hgt] at h
    cases h
  unfold findBestWindow at h
  obtain ⟨k, hk⟩ : ∃ k, doc.length + 1 - start = k + 1 :=
    ⟨doc.length - start, by omega⟩
  rw [hk, findLoop_succ,
      if_pos (show (-1 : Int) < ((scoreAt doc old start : Nat) : Int) by omega)] at h
  by_cases hperf : scoreAt doc old start = old.length
  · rw [if_pos hperf] at h
    injection h with h
    subst h
    refine ⟨le_refl start, hle, ?_, ?_⟩
    · intro j h1 h2
      calc scoreAt doc old j ≤ old.length := scoreAt_le doc old j
        _ = scoreAt doc old start := hperf.symm
    · intro j h1 h2
      omega
  · rw [if_neg hperf] at h
    obtain ⟨m0, hm0, hspec⟩ := findLoop_spec doc old k (start + 1) start (by omega)
    rw [hm0] at h
    injection h with h
    subst h
    rcases hspec with ⟨rfl, hall⟩ | ⟨h1, h2, h3, h4, h5⟩
    · refine ⟨le_refl m0, hle, ?_, ?_⟩
      · intro j hj1 hj2
        rcases Nat.eq_or_lt_of_le hj1 with rfl | hj
        · exact le_refl _
        · exact hall j hj hj2
      · intro j hj1 hj2
        omega
    · refine ⟨by omega, h2, ?_, ?_⟩
      · intro j hj1 hj2
        rcases Nat.eq_or_lt_of_le hj1 with rfl | hj
        · exact le_of_lt h3
        · exact h4 j hj hj2
      · intro j hj1 hj2
        rcases Nat.eq_or_lt_of_le hj1 with rfl | hj
        · exact h3
        · exact h5 j hj hj2

theorem findBestWindow_isSome (doc old : List (List Char)) (start : Nat)
    (hle : start ≤ doc.length) : ∃ m, findBestWindow doc old start = some m := by
  cases h : findBestWindow doc old start with
  | none =>
    rw [findBestWindow_none_iff] at h
    omega
  | some m => exact ⟨m, rfl⟩

theorem scoreSequence_nil_right : ∀ (w : List (List Char)),
    scoreSequence w [] = 0 := by
  intro w
  cases w <;> rfl


/-! ## Helper lemmas: score as a count of matching positions -/

theorem scoreSequence_countP : ∀ (w t : List (List Char)),
    scoreSequence w t =
      (List.range (min w.length t.length)).countP
        (fun j => decide (w[j]? = t[j]?)) := by
  intro w
  induction w with
  | nil => intro t; simp [scoreSequence]
  | cons a ws ih =>
    intro t
    match t with
    | [] => simp [scoreSequence_nil_right]
    | b :: ts =>
      have hmin : min (a :: ws).length (b :: ts).length = min ws.length ts.length + 1 := by
        simp [List.length_cons, Nat.succ_min_succ]
      rw [hmin, List.range_succ_eq_map]
      rw [List.countP_cons, List.countP_map]
      have hcong :
          List.countP ((fun j => decide ((a :: ws)[j]? = (b :: ts)[j]?)) ∘ Nat.succ)
            (List.range (min ws.length ts.length))
          = List.countP (fun j => decide (ws[j]? = ts[j]?))
              (List.range (min ws.length ts.length)) := by
        refine List.countP_congr ?_
        intro x hx
        simp [Function.comp, List.getElem?_cons_succ]
      rw [hcong, ← ih ts]
      show (if a = b then 1 else 0) + scoreSequence ws ts = _
      by_cases hab : a = b
      · simp [hab]
        omega
      · simp [hab]

/-! ## Helper lemmas: splitting and joining lines -/

theorem splitLines_ne_nil : ∀ (s : List Char), splitLines s ≠ [] := by
  intro s
  match s with
  | [] => simp [splitLines]
  | c :: rest =>
    by_cases hc : c = '\n'
    · simp [splitLines, hc]
    · simp only [splitLines, if_neg hc]
      cases h : splitLines rest <;> simp

theorem splitLines_cons_newline (rest : List Char) :
    splitLines ('\n' :: rest) = [] :: splitLines rest := by
  simp [splitLines]

theorem splitLines_cons_other {c : Char} (hc : c ≠ '\n') (rest : List Char) :
    splitLines (c :: rest) =
      match splitLines rest with
      | [] => [[c]]
      | l :: ls => (c :: l) :: ls := by
  simp [splitLines, hc]

theorem mem_splitLines_no_newline : ∀ (s : List Char), ∀ l ∈ splitLines s, '\n' ∉ l := by
  intro s
  induction s with
  | nil =>
    intro l hl
    simp [splitLines] at hl
    simp [hl]
  | cons c rest ih =>
    intro l hl
    by_cases hc : c = '\n'
    · subst hc
      rw [splitLines_cons_newline] at hl
      rcases List.mem_cons.mp hl with rfl | hl
      · simp
      · exact ih l hl
    · rw [splitLines_cons_other hc] at hl
      cases h : splitLines rest with
      | nil => exact absurd h (splitLines_ne_nil rest)
      | cons l0 ls =>
        rw [h] at hl
        rcases List.mem_cons.mp hl with rfl | hl
        · have h0 : '\n' ∉ l0 := ih l0 (by rw [h]; exact List.mem_cons_self l0 ls)
          intro hmem
          rcases List.mem_cons.mp hmem with h9 | h9
          · exact hc h9.symm
          · exact h0 h9
        · exact ih l (by rw [h]; exact List.mem_cons_of_mem l0 hl)

theorem splitLines_single {l : List Char} (hl : '\n' ∉ l) : splitLines l = [l] := by
  induction l with
  | nil => rfl
  | cons c rest ih =>
    have hc : c ≠ '\n' := fun h => hl (h ▸ List.mem_cons_self c rest)
    have hrest : '\n' ∉ rest := fun h => hl (List.mem_cons_of_mem c h)
    rw [splitLines_cons_other hc, ih hrest]

theorem splitLines_append_newline {l : List Char} (hl : '\n' ∉ l) (rest : List Char) :
    splitLines (l ++ '\n' :: rest) = l :: splitLines rest := by
  induction l with
  | nil => simpa using splitLines_cons_newline rest
  | cons c l0 ih =>
    have hc : c ≠ '\n' := fun h => hl (h ▸ List.mem_cons_self c l0)
    have hl0 : '\n' ∉ l0 := fun h => hl (List.mem_cons_of_mem c h)
    rw [List.cons_append, splitLines_cons_other hc, ih hl0]

theorem joinLines_cons (l : List Char) (l2 : List (List Char)) (h : l2 ≠ []) :
    joinLines (l :: l2) = l ++ '\n' :: joinLines l2 := by
  match l2, h with
  | l2h :: l2t, _ => rfl

theorem splitLines_joinLines :
    ∀ (ls : List (List Char)), ls ≠ [] → (∀ l ∈ ls, '\n' ∉ l) →
      splitLines (joinLines ls) = ls := by
  intro ls
  induction ls with
  | nil => intro h; exact absurd rfl h
  | cons l rest ih =>
    intro _ hall
    match rest with
    | [] =>
      show splitLines (joinLines [l]) = [l]
      exact splitLines_single (hall l (List.mem_cons_self l []))
    | r :: rs =>
      rw [joinLines_cons l (r :: rs) (by simp)]
      rw [splitLines_append_newline (hall l (List.mem_cons_self l (r :: rs)))]
      rw [ih (by simp) (fun x hx => hall x (List.mem_cons_of_mem l hx))]


/-! ## Helper lemmas: hunk application -/

theorem applySingleHunk_eq (content : List Char) (hunk : Hunk) (startLine : Nat) :
    applySingleHunk content hunk startLine =
      match findBestWindow (splitLines content) (oldLines hunk.body) startLine with
      | none => none
      | some bestIdx =>
        if verifyRemovals (splitLines content) bestIdx hunk.body then
          some (joinLines ((splitLines content).take bestIdx ++ newLines hunk.body ++
                  (splitLines content).drop (bestIdx + (oldLines hunk.body).length)),
                bestIdx + (newLines hunk.body).length)
        else none := rfl

/-- Inversion of a successful `applySingleHunk`: the matcher returned an index
`m` at or after the search start, verification succeeded there, the new text is
the splice at `m`, and the returned cursor is `m` plus the new block length. -/
theorem applySingleHunk_some_inv {content : List Char} {hunk : Hunk}
    {startLine : Nat} {r : List Char × Nat}
    (h : applySingleHunk content hunk startLine = some r) :
    ∃ m, startLine ≤ m ∧
      findBestWindow (splitLines content) (oldLines hunk.body) startLine = some m ∧
      verifyRemovals (splitLines content) m hunk.body = true ∧
      r.1 = joinLines ((splitLines content).take m ++ newLines hunk.body ++
              (splitLines content).drop (m + (oldLines hunk.body).length)) ∧
      r.2 = m + (newLines hunk.body).length := by
  rw [applySingleHunk_eq] at h
  split at h
  · cases h
  · rename_i b hfind
    split at h
    · rename_i hv
      injection h with h
      refine ⟨b, (findBestWindow_some_spec _ _ _ _ hfind).1, hfind, hv, ?_, ?_⟩
      · rw [← h]
      · rw [← h]
    · cases h

theorem RunsTo_cursor_le {hs : List Hunk} {c : List Char} {n : Nat}
    {c2 : List Char} {n2 : Nat} (h : RunsTo hs c n c2 n2) : n ≤ n2 := by
  induction h with
  | nil => exact le_refl _
  | cons hstep _ ih =>
    obtain ⟨m, hm, -, -, -, hr2⟩ := applySingleHunk_some_inv hstep
    simp only at hr2
    omega

theorem applyHunks_nil (c : List Char) (n : Nat) : applyHunks [] c n = .ok c := rfl

theorem applyHunks_cons (h : Hunk) (rest : List Hunk) (c : List Char) (n : Nat) :
    applyHunks (h :: rest) c n =
      match applySingleHunk c h n with
      | none => .error (.hunkApplicationFailed h.header)
      | some (c2, n2) => applyHunks rest c2 n2 := rfl

/-- Running the fold over a list that begins with hunks that all succeed and
then a hunk that fails aborts with `hunkApplicationFailed` naming the failing
hunk's header, whatever comes after it. -/
theorem applyHunks_append_fail {h : Hunk} :
    ∀ (pre : List Hunk) (c0 : List Char) (n0 : Nat) (c : List Char) (n : Nat),
      RunsTo pre c0 n0 c n → applySingleHunk c h n = none →
      ∀ (rest : List Hunk),
        applyHunks (pre ++ h :: rest) c0 n0 =
          .error (.hunkApplicationFailed h.header) := by
  intro pre
  induction pre with
  | nil =>
    intro c0 n0 c n hrun hfail rest
    cases hrun
    rw [List.nil_append, applyHunks_cons, hfail]
  | cons b pre2 ih =>
    intro c0 n0 c n hrun hfail rest
    cases hrun with
    | cons hstep hrun2 =>
      rw [List.cons_append, applyHunks_cons, hstep]
      exact ih _ _ _ _ hrun2 hfail rest

/-! ## Helper lemmas: the parser fails on the first bad header -/

theorem parseHunksGo_cons (raw : List Char) (rest : List (List Char)) :
    parseHunksGo (raw :: rest) =
      match parseHeader (headerOf raw) with
      | none => .error (.malformedHunkHeader (headerOf raw))
      | some (os, oc, ns, nc) =>
        match parseHunksGo rest with
        | .error e => .error e
        | .ok hs =>
          .ok ({ header := headerOf raw, body := (splitLines raw).tail,
                 oldStart := os, oldCount := oc,
                 newStart := ns, newCount := nc } :: hs) := rfl

theorem parseHunksGo_append_bad {pre : List (List Char)} {bad : List Char}
    (hpre : ∀ b ∈ pre, parseHeader (headerOf b) ≠ none)
    (hbad : parseHeader (headerOf bad) = none) (rest : List (List Char)) :
    parseHunksGo (pre ++ bad :: rest) =
      .error (.malformedHunkHeader (headerOf bad)) := by
  induction pre with
  | nil =>
    rw [List.nil_append, parseHunksGo_cons, hbad]
  | cons b pre2 ih =>
    have hb := hpre b (List.mem_cons_self b pre2)
    obtain ⟨q, hq⟩ := Option.ne_none_iff_exists'.mp hb
    obtain ⟨os, oc, ns, nc⟩ := q
    rw [List.cons_append, parseHunksGo_cons, hq,
        ih (fun x hx => hpre x (List.mem_cons_of_mem b hx))]


/-! ## Helper lemmas: EOL normalization (claim C7) -/

theorem noLoneCR_single (c : Char) : noLoneCR [c] = decide ¬(c = '\r') := rfl

theorem noLoneCR_two (c d : Char) (rest : List Char) :
    noLoneCR (c :: d :: rest) =
      if c = '\r' then (decide (d = '\n') && noLoneCR rest)
      else noLoneCR (d :: rest) := rfl

theorem normalizeEOL_no_cr : ∀ (t : List Char), noLoneCR t = true →
    '\r' ∉ normalizeEOL t := by
  intro t
  induction t using normalizeEOL.induct with
  | case1 =>
    intro _
    simp [normalizeEOL]
  | case2 c =>
    intro h
    rw [noLoneCR_single] at h
    have hc : ¬(c = '\r') := of_decide_eq_true h
    show '\r' ∉ [c]
    simp
    exact fun hcc => hc hcc.symm
  | case3 c d rest hcond ih =>
    intro h
    rw [normalizeEOL, if_pos hcond]
    obtain ⟨hc, hd⟩ := hcond
    rw [noLoneCR_two, if_pos hc, hd] at h
    have h : noLoneCR rest = true := by simpa using h
    intro hmem
    rcases List.mem_cons.mp hmem with h9 | h9
    · exact absurd h9.symm (by decide)
    · exact ih h h9
  | case4 c d rest hcond ih =>
    intro h
    rw [normalizeEOL, if_neg hcond]
    have hc : ¬(c = '\r') := by
      intro hc
      rw [noLoneCR_two, if_pos hc] at h
      have hd : d = '\n' := by
        rcases Bool.and_eq_true_iff.mp h with ⟨h1, -⟩
        exact of_decide_eq_true h1
      exact hcond ⟨hc, hd⟩
    rw [noLoneCR_two, if_neg hc] at h
    intro hmem
    rcases List.mem_cons.mp hmem with h9 | h9
    · exact hc h9.symm
    · exact ih h h9

theorem chain'_lf_of_no_cr : ∀ (s : List Char), '\r' ∉ s →
    List.Chain' (fun a b => ¬(a = '\r' ∧ b = '\n')) s := by
  intro s
  induction s with
  | nil => intro _; exact List.chain'_nil
  | cons a rest ih =>
    intro h
    rw [List.chain'_cons']
    refine ⟨?_, ih (fun hm => h (List.mem_cons_of_mem a hm))⟩
    intro b _ hab
    exact h (hab.1 ▸ List.mem_cons_self a rest)

theorem replaceLF_head_ne_lf : ∀ (s : List Char), (replaceLF s).head? ≠ some '\n' := by
  intro s
  match s with
  | [] => simp [replaceLF]
  | c :: r =>
    by_cases hc : c = '\n'
    · rw [replaceLF, if_pos hc]
      simp
    · rw [replaceLF, if_neg hc]
      simpa using fun h => hc h

theorem chain'_crlf_replaceLF : ∀ (s : List Char),
    List.Chain' (fun a b => b = '\n' → a = '\r') (replaceLF s) := by
  intro s
  induction s with
  | nil => exact List.chain'_nil
  | cons c r ih =>
    by_cases hc : c = '\n'
    · rw [replaceLF, if_pos hc]
      rw [List.chain'_cons]
      refine ⟨fun _ => rfl, ?_⟩
      rw [List.chain'_cons']
      refine ⟨?_, ih⟩
      intro b hb hblf
      exact absurd (by rw [hblf] at hb; exact hb) (replaceLF_head_ne_lf r)
    · rw [replaceLF, if_neg hc]
      rw [List.chain'_cons']
      refine ⟨?_, ih⟩
      intro b hb hblf
      exact absurd (by rw [hblf] at hb; exact hb) (replaceLF_head_ne_lf r)

theorem stripCR_normalizeEOL : ∀ (t : List Char),
    stripCR (normalizeEOL t) = stripCR t := by
  intro t
  induction t using normalizeEOL.induct with
  | case1 => rfl
  | case2 c => rfl
  | case3 c d rest hcond ih =>
    obtain ⟨hc, hd⟩ := hcond
    subst hc hd
    rw [normalizeEOL, if_pos ⟨rfl, rfl⟩]
    show stripCR ('\n' :: normalizeEOL rest) = stripCR ('\r' :: '\n' :: rest)
    simp only [stripCR, List.filter]
    rw [show (decide ('\n' ≠ '\r')) = true by decide,
        show (decide ('\r' ≠ '\r')) = false by decide]
    show '\n' :: stripCR (normalizeEOL rest) = '\n' :: stripCR rest
    rw [ih]
  | case4 c d rest hcond ih =>
    rw [normalizeEOL, if_neg hcond]
    show stripCR (c :: normalizeEOL (d :: rest)) = stripCR (c :: d :: rest)
    simp only [stripCR, List.filter]
    by_cases hc : c = '\r'
    · subst hc
      rw [show (decide ('\r' ≠ '\r')) = false by decide]
      exact ih
    · rw [show (decide (c ≠ '\r')) = true from decide_eq_true hc]
      show c :: stripCR (normalizeEOL (d :: rest)) = c :: stripCR (d :: rest)
      rw [ih]

theorem stripCR_replaceLF : ∀ (s : List Char), stripCR (replaceLF s) = stripCR s := by
  intro s
  induction s with
  | nil => rfl
  | cons c r ih =>
    by_cases hc : c = '\n'
    · subst hc
      rw [replaceLF, if_pos rfl]
      show stripCR ('\r' :: '\n' :: replaceLF r) = stripCR ('\n' :: r)
      simp only [stripCR, List.filter]
      rw [show (decide ('\r' ≠ '\r')) = false by decide,
          show (decide ('\n' ≠ '\r')) = true by decide]
      show '\n' :: stripCR (replaceLF r) = '\n' :: stripCR r
      rw [ih]
    · rw [replaceLF, if_neg hc]
      simp only [stripCR, List.filter]
      by_cases hcr : c = '\r'
      · subst hcr
        rw [show (decide ('\r' ≠ '\r')) = false by decide]
        exact ih
      · rw [show (decide (c ≠ '\r')) = true from decide_eq_true hcr]
        show c :: stripCR (replaceLF r) = c :: stripCR r
        rw [ih]

/-! ## Helper lemmas: the detection pre-check (claim C8) -/

theorem matchesHunkStart_iff (s : List Char) :
    matchesHunkStart s = true ↔
      ∃ c t, s = '@' :: '@' :: c :: '-' :: t ∧ isSpaceJS c = true := by
  rcases s with _ | ⟨a, _ | ⟨b, _ | ⟨c, _ | ⟨d, t⟩⟩⟩⟩
  · simp [matchesHunkStart]
  · simp [matchesHunkStart]
  · simp [matchesHunkStart]
  · simp [matchesHunkStart]
  · show (decide (a = '@') && decide (b = '@') && isSpaceJS c && decide (d = '-')) = true ↔ _
    constructor
    · intro h
      simp only [Bool.and_eq_true, decide_eq_true_eq] at h
      obtain ⟨⟨⟨ha, hb⟩, hc⟩, hd⟩ := h
      subst ha hb hd
      exact ⟨c, t, rfl, hc⟩
    · rintro ⟨c2, t2, heq, hsp⟩
      simp only [List.cons.injEq] at heq
      obtain ⟨ha, hb, hc, hd, ht⟩ := heq
      subst ha hb hc hd
      simp [hsp]

theorem containsHeaderPairAux_iff : ∀ (s : List Char),
    containsHeaderPairAux s = true ↔
      ∃ j c r, s.drop j = c :: r ∧ isLineTerm c = true ∧
        matchesHeaderPairAt r = true := by
  intro s
  induction s with
  | nil =>
    simp only [containsHeaderPairAux, List.drop_nil]
    constructor
    · intro h; cases h
    · rintro ⟨j, c, r, hdrop, -, -⟩; cases hdrop
  | cons c rest ih =>
    rw [containsHeaderPairAux]
    rw [Bool.or_eq_true, Bool.and_eq_true, ih]
    constructor
    · rintro (⟨hterm, hpair⟩ | ⟨j, c2, r2, hdrop, hterm, hpair⟩)
      · exact ⟨0, c, rest, rfl, hterm, hpair⟩
      · exact ⟨j + 1, c2, r2, by simpa using hdrop, hterm, hpair⟩
    · rintro ⟨j, c2, r2, hdrop, hterm, hpair⟩
      cases j with
      | zero =>
        rw [List.drop_zero] at hdrop
        injection hdrop with h1 h2
        subst h1 h2
        exact .inl ⟨hterm, hpair⟩
      | succ j2 =>
        exact .inr ⟨j2, c2, r2, by simpa using hdrop, hterm, hpair⟩


/-! ## Claim theorems -/

/-- Claim C1: `verifyRemovals(documentLines, matchedIndex, hunkBody)` returns
true if and only if, walking `hunkBody` in order with a cursor starting at
`matchedIndex`, every context (space-tagged) and deletion (`'-'`-tagged)
line's value equals the document line at the cursor exactly, the cursor
advancing by one after each such line (so the `k`-th such value is compared at
`matchedIndex + k`); any single mismatch (including a missing document line)
makes the result false, and addition lines neither advance the cursor nor are
compared against the document (they do not occur in `oldLines hunkBody`). -/
theorem c1_verifyRemovals_exact (doc : List (List Char)) (m : Nat)
    (body : List (List Char)) :
    verifyRemovals doc m body = true ↔
      ∀ k, k < (oldLines body).length → doc[m + k]? = (oldLines body)[k]? :=
  verifyRemovals_iff doc body m

/-- Witness for C1 at a concrete document and hunk body. -/
theorem c1_witness :
    verifyRemovals [['a'], ['b']] 0 [[' ', 'a'], ['+', 'X'], ['-', 'b']] = true ↔
      ∀ k, k < (oldLines [[' ', 'a'], ['+', 'X'], ['-', 'b']]).length →
        [['a'], ['b']][0 + k]? = (oldLines [[' ', 'a'], ['+', 'X'], ['-', 'b']])[k]? :=
  c1_verifyRemovals_exact [['a'], ['b']] 0 [[' ', 'a'], ['+', 'X'], ['-', 'b']]

/-- Claim C2: the matcher considers every candidate index from `searchStart`
to `document.length` inclusive; it returns `none` exactly when that candidate
range is empty (`searchStart > document.length`), never because the best score
is low; a returned index is the lowest-index candidate achieving the maximum
score; each window's score is the count of positions `j` below
`min(window length, oldBlock.length)` where `document[i+j] = oldBlock[j]`; and
for an empty old block the chosen index is `searchStart` itself. -/
theorem c2_matcher_characterization (doc old : List (List Char)) (startLine : Nat) :
    (findBestWindow doc old startLine = none ↔ doc.length < startLine) ∧
    (∀ m, findBestWindow doc old startLine = some m →
        startLine ≤ m ∧ m ≤ doc.length ∧
        (∀ i, startLine ≤ i → i ≤ doc.length →
          scoreAt doc old i ≤ scoreAt doc old m) ∧
        (∀ i, startLine ≤ i → i < m → scoreAt doc old i < scoreAt doc old m)) ∧
    (∀ i, scoreAt doc old i =
        (List.range (min ((doc.drop i).take old.length).length old.length)).countP
          (fun j => decide (doc[i + j]? = old[j]?))) ∧
    (old = [] → startLine ≤ doc.length →
      findBestWindow doc old startLine = some startLine) := by
  refine ⟨findBestWindow_none_iff doc old startLine,
    fun m hm => findBestWindow_some_spec doc old startLine m hm, ?_, ?_⟩
  · intro i
    rw [scoreAt, scoreSequence_countP]
    refine List.countP_congr ?_
    intro j hj
    rw [List.mem_range] at hj
    have hjw : j < ((doc.drop i).take old.length).length :=
      lt_of_lt_of_le hj (min_le_left _ _)
    have hjold : j < old.length := by
      rw [List.length_take] at hjw
      omega
    rw [List.getElem?_take, if_pos hjold, List.getElem?_drop]
  · intro hold hle
    subst hold
    obtain ⟨m, hm⟩ := findBestWindow_isSome doc [] startLine hle
    have hspec := findBestWindow_some_spec doc [] startLine m hm
    have hz : ∀ j, scoreAt doc [] j = 0 := by
      intro j
      rw [scoreAt, scoreSequence_nil_right]
    have hms : m = startLine := by
      rcases Nat.eq_or_lt_of_le hspec.1 with h | h
      · exact h.symm
      · exfalso
        have hcon := hspec.2.2.2 startLine (le_refl _) h
        rw [hz, hz] at hcon
        omega
    rw [hms] at hm
    exact hm

/-- Witness for C2: with an empty old block and a valid start the matcher
returns the start position itself. -/
theorem c2_witness : findBestWindow [['a'], ['b']] [] 1 = some 1 :=
  (c2_matcher_characterization [['a'], ['b']] [] 1).2.2.2 rfl (by decide)

/-- Claim C3: when `applySingleHunk` succeeds on a hunk matched at index `m`
(the matcher returned `m` and removal verification passed there), the
resulting text is the join of: the lines before `m`, then `newBlock`, then the
lines from `m + oldBlock.length` onward — i.e. the line sequence with exactly
the `oldBlock.length`-line range at `m` replaced by `newBlock` in one update —
and the returned cursor is `m + newBlock.length`.  Under the side conditions
that the new block's lines contain no newline and the spliced sequence is
nonempty, the resulting text re-splits into exactly that spliced line
sequence. -/
theorem c3_applySingleHunk_splices (content : List Char) (hunk : Hunk)
    (startLine m : Nat)
    (hm : findBestWindow (splitLines content) (oldLines hunk.body) startLine = some m)
    (hv : verifyRemovals (splitLines content) m hunk.body = true)
    (hnl : ∀ l ∈ newLines hunk.body, '\n' ∉ l)
    (hne : (splitLines content).take m ++ newLines hunk.body ++
        (splitLines content).drop (m + (oldLines hunk.body).length) ≠ []) :
    applySingleHunk content hunk startLine =
      some (joinLines ((splitLines content).take m ++ newLines hunk.body ++
              (splitLines content).drop (m + (oldLines hunk.body).length)),
            m + (newLines hunk.body).length) ∧
    splitLines (joinLines ((splitLines content).take m ++ newLines hunk.body ++
        (splitLines content).drop (m + (oldLines hunk.body).length))) =
      (splitLines content).take m ++ newLines hunk.body ++
        (splitLines content).drop (m + (oldLines hunk.body).length) := by
  constructor
  · rw [applySingleHunk_eq, hm]
    show (if verifyRemovals (splitLines content) m hunk.body then _ else none) = _
    rw [if_pos hv]
  · refine splitLines_joinLines _ hne ?_
    intro l hl
    rcases List.mem_append.mp hl with hl2 | hl2
    · rcases List.mem_append.mp hl2 with hl3 | hl3
      · exact mem_splitLines_no_newline content l (List.mem_of_mem_take hl3)
      · exact hnl l hl3
    · exact mem_splitLines_no_newline content l (List.mem_of_mem_drop hl2)

/-- Witness for C3 on the specification's single-hunk example. -/
theorem c3_witness :
    applySingleHunk "a\nb\nc".data
        ⟨"@@ -1,3 +1,3 @@".data, [" a".data, "-b".data, "+B".data, " c".data],
         1, some 3, 1, some 3⟩ 0 =
      some (joinLines ((splitLines "a\nb\nc".data).take 0 ++
              newLines [" a".data, "-b".data, "+B".data, " c".data] ++
              (splitLines "a\nb\nc".data).drop
                (0 + (oldLines [" a".data, "-b".data, "+B".data, " c".data]).length)),
            0 + (newLines [" a".data, "-b".data, "+B".data, " c".data]).length) ∧
    splitLines (joinLines ((splitLines "a\nb\nc".data).take 0 ++
        newLines [" a".data, "-b".data, "+B".data, " c".data] ++
        (splitLines "a\nb\nc".data).drop
          (0 + (oldLines [" a".data, "-b".data, "+B".data, " c".data]).length))) =
      (splitLines "a\nb\nc".data).take 0 ++
        newLines [" a".data, "-b".data, "+B".data, " c".data] ++
        (splitLines "a\nb\nc".data).drop
          (0 + (oldLines [" a".data, "-b".data, "+B".data, " c".data]).length) :=
  c3_applySingleHunk_splices "a\nb\nc".data
    ⟨"@@ -1,3 +1,3 @@".data, [" a".data, "-b".data, "+B".data, " c".data],
     1, some 3, 1, some 3⟩ 0 0 (by decide) (by decide) (by decide) (by decide)

/-- Claim C6: within one patch operation the search cursor is monotonically
non-decreasing.  A successful `applySingleHunk` returns a cursor at least the
search start: the matched index `m` is at or after the start (so a hunk is
never matched against lines before the cursor), and the new cursor is
`m + newBlock.length ≥ m`.  Consequently any run of successful applications
(`RunsTo`, each hunk searched from the cursor the previous hunk left) never
decreases the cursor. -/
theorem c6_cursor_monotone :
    (∀ (content : List Char) (hunk : Hunk) (n : Nat) (r : List Char × Nat),
        applySingleHunk content hunk n = some r →
        n ≤ r.2 ∧ ∃ m, n ≤ m ∧
          findBestWindow (splitLines content) (oldLines hunk.body) n = some m ∧
          r.2 = m + (newLines hunk.body).length) ∧
    (∀ (hs : List Hunk) (c : List Char) (n : Nat) (c2 : List Char) (n2 : Nat),
        RunsTo hs c n c2 n2 → n ≤ n2) := by
  constructor
  · intro content hunk n r h
    obtain ⟨m, hm, hfind, -, -, hr2⟩ := applySingleHunk_some_inv h
    exact ⟨by omega, m, hm, hfind, hr2⟩
  · intro hs c n c2 n2 h
    exact RunsTo_cursor_le h

/-- Witness for C6 at a concrete one-hunk application. -/
theorem c6_witness :
    (0 : Nat) ≤ ("A\nb\n".data, 1).2 ∧ ∃ m, 0 ≤ m ∧
      findBestWindow (splitLines "a\nb\n".data)
        (oldLines [['-', 'a'], ['+', 'A'], []]) 0 = some m ∧
      ("A\nb\n".data, 1).2 = m + (newLines [['-', 'a'], ['+', 'A'], []]).length :=
  c6_cursor_monotone.1 "a\nb\n".data
    ⟨"@@ -1,1 +1,1 @@".data, [['-', 'a'], ['+', 'A'], []], 1, some 1, 1, some 1⟩
    0 ("A\nb\n".data, 1) (by decide)

/-- Claim C9: `verifyRemovals` is total at the document boundary — when the
cursor would walk past the last document line while context or deletion lines
remain, the missing line is treated as a mismatch and the result is `false`;
in particular a matched window extending past the end of the document is
always rejected when the old block is non-empty. -/
theorem c9_verifyRemovals_rejects_overrun (doc : List (List Char)) (m : Nat)
    (body : List (List Char)) (hne : oldLines body ≠ [])
    (hov : doc.length < m + (oldLines body).length) :
    verifyRemovals doc m body = false := by
  cases hvr : verifyRemovals doc m body with
  | false => rfl
  | true =>
    exfalso
    have hall := (verifyRemovals_iff doc body m).mp hvr
    have hL : 0 < (oldLines body).length := List.length_pos.mpr hne
    have hk := hall ((oldLines body).length - 1) (by omega)
    rw [List.getElem?_eq_getElem (show (oldLines body).length - 1 <
      (oldLines body).length by omega)] at hk
    obtain ⟨hlt, -⟩ := List.getElem?_eq_some_iff.mp hk
    omega

/-- Witness for C9: a window of two old lines starting at 0 in a one-line
document is rejected. -/
theorem c9_witness : verifyRemovals [['a']] 0 [[' ', 'a'], ['-', 'b']] = false :=
  c9_verifyRemovals_rejects_overrun [['a']] 0 [[' ', 'a'], ['-', 'b']]
    (by decide) (by decide)

/-- Claim C10: a body line whose first character is neither `' '`, `'-'` nor
`'+'` (or an empty body line) is ignored everywhere bodies are interpreted: it
contributes to neither the old block nor the new block, does not advance the
removal-verification cursor, and cannot fail verification; hence applying a
hunk is unaffected by inserting (equivalently, deleting) such a line anywhere
in its body. -/
theorem c10_unrecognized_lines_ignored (content : List Char) (hk : Hunk)
    (startLine : Nat) (b1 b2 : List (List Char)) {j : List Char}
    (hj : skippedLine j) :
    applySingleHunk content { hk with body := b1 ++ j :: b2 } startLine =
      applySingleHunk content { hk with body := b1 ++ b2 } startLine := by
  have ho := oldLines_skipped hj b1 b2
  have hn := newLines_skipped hj b1 b2
  have hv : ∀ i, verifyRemovals (splitLines content) i (b1 ++ j :: b2) =
      verifyRemovals (splitLines content) i (b1 ++ b2) :=
    fun i => verifyRemovals_skipped (splitLines content) hj b1 b2 i
  rw [applySingleHunk_eq, applySingleHunk_eq]
  simp only [ho, hn, hv]

/-- Witness for C10: inserting a `"\x5cx"` marker line into a body does not
change the application result. -/
theorem c10_witness :
    applySingleHunk "a\nb".data
        { header := [], body := [[' ', 'a']] ++ ['\\', 'x'] :: [['-', 'b'], ['+', 'B']],
          oldStart := 1, oldCount := none, newStart := 1, newCount := none }
        0 =
      applySingleHunk "a\nb".data
        { header := [], body := [[' ', 'a']] ++ [['-', 'b'], ['+', 'B']],
          oldStart := 1, oldCount := none, newStart := 1, newCount := none }
        0 :=
  c10_unrecognized_lines_ignored "a\nb".data
    { header := [], body := [], oldStart := 1, oldCount := none,
      newStart := 1, newCount := none }
    0 [[' ', 'a']] [['-', 'b'], ['+', 'B']]
    (by
      intro c hc
      injection hc with hc
      subst hc
      exact ⟨by decide, by decide, by decide⟩)


theorem applyDiffPatch_eq (documentContent rawDiff : List Char) (eol : EndOfLine) :
    applyDiffPatch documentContent rawDiff eol =
      match parseHunks (normalizeEOL rawDiff) with
      | .error e => .error e
      | .ok hunks =>
        if hunks.isEmpty then .ok (restoreEOL (normalizeEOL documentContent) eol)
        else
          match applyHunks hunks (normalizeEOL documentContent) 0 with
          | .error e => .error e
          | .ok content => .ok (restoreEOL content eol) := rfl

/-- Claim C4: `applyDiffPatch` folds the parsed hunks over the document
strictly in diff order; the first hunk reported not-applicable (here: the
hunks `pre` before it all applied successfully, and `applySingleHunk` fails on
`h` at the current state) aborts the whole operation with
`hunkApplicationFailed` carrying that hunk's header — whatever hunks follow,
with no retry or second pass, and with an error (never a partially-applied
document as success) as the overall result. -/
theorem c4_first_failure_aborts (doc diff : List Char) (eol : EndOfLine)
    (pre rest : List Hunk) (h : Hunk) (c : List Char) (n : Nat)
    (hp : parseHunks (normalizeEOL diff) = .ok (pre ++ h :: rest))
    (hrun : RunsTo pre (normalizeEOL doc) 0 c n)
    (hfail : applySingleHunk c h n = none) :
    applyDiffPatch doc diff eol = .error (.hunkApplicationFailed h.header) := by
  rw [applyDiffPatch_eq, hp]
  show (if (pre ++ h :: rest).isEmpty = true then
          (Except.ok (restoreEOL (normalizeEOL doc) eol) : Except PatchError (List Char))
        else
          match applyHunks (pre ++ h :: rest) (normalizeEOL doc) 0 with
          | .error e => .error e
          | .ok content => .ok (restoreEOL content eol)) =
      .error (.hunkApplicationFailed h.header)
  rw [if_neg (by simp), applyHunks_append_fail pre (normalizeEOL doc) 0 c n hrun hfail rest]

/-- Witness for C4: a two-hunk diff whose first hunk applies and whose second
hunk cannot be located, aborting with the second hunk's header. -/
theorem c4_witness :
    applyDiffPatch "a\nb\n".data
        "@@ -1,1 +1,1 @@\n-a\n+A\n@@ -9,1 +9,1 @@\n-zzz\n+Z".data .LF =
      .error (.hunkApplicationFailed "@@ -9,1 +9,1 @@".data) :=
  c4_first_failure_aborts "a\nb\n".data
    "@@ -1,1 +1,1 @@\n-a\n+A\n@@ -9,1 +9,1 @@\n-zzz\n+Z".data .LF
    [⟨"@@ -1,1 +1,1 @@".data, [['-', 'a'], ['+', 'A'], []], 1, some 1, 1, some 1⟩]
    []
    ⟨"@@ -9,1 +9,1 @@".data, [['-', 'z', 'z', 'z'], ['+', 'Z']], 9, some 1, 9, some 1⟩
    "A\nb\n".data 1
    (by rfl)
    (RunsTo.cons (by decide) (RunsTo.nil "A\nb\n".data 1))
    (by decide)

/-- Claim C5: if some hunk block's first line fails the header grammar
`@@ -<oldStart>[,<oldCount>] +<newStart>[,<newCount>] @@` (here: the blocks
before it parse fine and `parseHeader` rejects the offending block's header),
parsing fails with `malformedHunkHeader` carrying the offending header text,
and the whole `applyDiffPatch` operation fails with that error — before any
hunk is applied to the document, regardless of how many valid hunks precede or
follow the bad one. -/
theorem c5_malformed_header_fails (doc diff : List Char) (eol : EndOfLine)
    (pre rest : List (List Char)) (bad : List Char)
    (hblocks : rawBlocks (normalizeEOL diff) = pre ++ bad :: rest)
    (hpre : ∀ b ∈ pre, parseHeader (headerOf b) ≠ none)
    (hbad : parseHeader (headerOf bad) = none) :
    parseHunks (normalizeEOL diff) = .error (.malformedHunkHeader (headerOf bad)) ∧
    applyDiffPatch doc diff eol = .error (.malformedHunkHeader (headerOf bad)) := by
  have hparse : parseHunks (normalizeEOL diff) =
      .error (.malformedHunkHeader (headerOf bad)) := by
    show parseHunksGo (rawBlocks (normalizeEOL diff)) = _
    rw [hblocks]
    exact parseHunksGo_append_bad hpre hbad rest
  refine ⟨hparse, ?_⟩
  rw [applyDiffPatch_eq, hparse]

/-- Witness for C5: a valid hunk followed by a `@@ garbage @@` block fails the
whole parse with the garbage header. -/
theorem c5_witness :
    parseHunks (normalizeEOL "@@ -1 +1 @@\n a\n@@ garbage @@\n x".data) =
      .error (.malformedHunkHeader (headerOf "@@ garbage @@\n x".data)) ∧
    applyDiffPatch "a".data "@@ -1 +1 @@\n a\n@@ garbage @@\n x".data .LF =
      .error (.malformedHunkHeader (headerOf "@@ garbage @@\n x".data)) :=
  c5_malformed_header_fails "a".data "@@ -1 +1 @@\n a\n@@ garbage @@\n x".data .LF
    ["@@ -1 +1 @@\n a\n".data] [] "@@ garbage @@\n x".data
    (by decide)
    (by
      intro b hb
      rw [List.mem_singleton] at hb
      subst hb
      decide)
    (by decide)


/-- Counterexample to claim C7 as stated: for `t = "\r\r\n"` and convention
LF, `denormalize(normalize(t), LF)` is `"\r\n"`, which still contains a CRLF
line ending — so the result does not have every line ending in LF form. -/
theorem c7_counterexample :
    ¬ eolConventionOK .LF (restoreEOL (normalizeEOL ['\r', '\r', '\n']) .LF) := by
  intro h
  have h2 : List.Chain' (fun a b => ¬(a = '\r' ∧ b = '\n')) ['\r', '\n'] := h
  exact (List.chain'_cons.mp h2).1 ⟨rfl, rfl⟩

/-- Claim C7 (amended): for all text `t` with no lone carriage return (every
`'\r'` immediately followed by `'\n'`) and every convention `c`,
`denormalize(normalize(t), c)` yields `t` with every line ending in exactly
`c`'s form: the line content (the text with all `'\r'` removed) is preserved,
no CRLF remains when `c` is LF, and every `'\n'` is preceded by `'\r'` when
`c` is CRLF. -/
theorem c7_eol_roundtrip (t : List Char) (c : EndOfLine) (h : noLoneCR t = true) :
    eolConventionOK c (restoreEOL (normalizeEOL t) c) ∧
    stripCR (restoreEOL (normalizeEOL t) c) = stripCR t := by
  have hnocr : '\r' ∉ normalizeEOL t := normalizeEOL_no_cr t h
  cases c with
  | LF =>
    refine ⟨?_, ?_⟩
    · show List.Chain' _ (normalizeEOL t)
      exact chain'_lf_of_no_cr _ hnocr
    · show stripCR (normalizeEOL t) = stripCR t
      exact stripCR_normalizeEOL t
  | CRLF =>
    refine ⟨⟨?_, ?_⟩, ?_⟩
    · exact replaceLF_head_ne_lf _
    · exact chain'_crlf_replaceLF _
    · show stripCR (replaceLF (normalizeEOL t)) = stripCR t
      rw [stripCR_replaceLF, stripCR_normalizeEOL]

/-- Witness for the amended C7 on mixed-ending text converted to CRLF. -/
theorem c7_witness :
    eolConventionOK .CRLF (restoreEOL (normalizeEOL "a\r\nb\n".data) .CRLF) ∧
    stripCR (restoreEOL (normalizeEOL "a\r\nb\n".data) .CRLF) =
      stripCR "a\r\nb\n".data :=
  c7_eol_roundtrip "a\r\nb\n".data .CRLF (by decide)

/-- Counterexample to claim C8 as stated: the text `"x\n@@ -1 +1 @@"` contains
a hunk-header line matching `@@ -` at the start of its second line (so the
claim's predicate holds), yet `isLikelyUnifiedDiff` returns false, because the
regex `^@@\s-` is tested without the `m` flag and only matches at the very
start of the text. -/
theorem c8_counterexample :
    isLikelyUnifiedDiffClaim "x\n@@ -1 +1 @@".data = true ∧
    isLikelyUnifiedDiff "x\n@@ -1 +1 @@".data = false :=
  ⟨by decide, by decide⟩

/-- Claim C8 (amended): `isLikelyUnifiedDiff` returns true for a text exactly
when the text is nonempty and either begins — at the very start of the text,
not merely of some line — with `@@`, one whitespace character and `-`, or
matches, at position 0 or immediately after a line terminator, the pattern
`---` + whitespace + a nonempty run of non-terminator characters + newline +
`+++` + whitespace + a non-terminator character. -/
theorem c8_isLikelyUnifiedDiff_characterization (s : List Char) :
    isLikelyUnifiedDiff s = true ↔
      s ≠ [] ∧
        ((∃ c t, s = '@' :: '@' :: c :: '-' :: t ∧ isSpaceJS c = true) ∨
          matchesHeaderPairAt s = true ∨
          ∃ j c r, s.drop j = c :: r ∧ isLineTerm c = true ∧
            matchesHeaderPairAt r = true) := by
  by_cases hs : s = []
  · subst hs
    constructor
    · intro h
      rw [isLikelyUnifiedDiff, if_pos rfl] at h
      cases h
    · rintro ⟨h, -⟩
      exact absurd rfl h
  · rw [isLikelyUnifiedDiff, if_neg hs, Bool.or_eq_true, matchesHunkStart_iff,
        containsHeaderPair, Bool.or_eq_true, containsHeaderPairAux_iff]
    constructor
    · rintro (h | h | h)
      · exact ⟨hs, .inl h⟩
      · exact ⟨hs, .inr (.inl h)⟩
      · exact ⟨hs, .inr (.inr h)⟩
    · rintro ⟨-, (h | h | h)⟩
      · exact .inl h
      · exact .inr (.inl h)
      · exact .inr (.inr h)

/-- Witness for the amended C8 at a concrete header pair. -/
theorem c8_witness :
    isLikelyUnifiedDiff "--- a/f\n+++ b/f".data = true ↔
      "--- a/f\n+++ b/f".data ≠ [] ∧
        ((∃ c t, "--- a/f\n+++ b/f".data = '@' :: '@' :: c :: '-' :: t ∧
            isSpaceJS c = true) ∨
          matchesHeaderPairAt "--- a/f\n+++ b/f".data = true ∨
          ∃ j c r, "--- a/f\n+++ b/f".data.drop j = c :: r ∧ isLineTerm c = true ∧
            matchesHeaderPairAt r = true) :=
  c8_isLikelyUnifiedDiff_characterization "--- a/f\n+++ b/f".data


end ClipDiff
